import Mathlib

/-!
Verification development for the realtime log-viewer core of the
`spiralsafe-mono` repository: the `LogFileWatcher` class (file tailing,
incremental JSON-line decoding, subscriber fan-out, session indexing).

The embedding models file contents as `List Char` (the files are UTF-8
text and all offsets in the source are code-unit offsets), JS strings as
`List Char`, and `JSON.parse` as a fuel-based recursive-descent parser
of the JSON grammar returning `Option Json`.
-/

set_option maxHeartbeats 1000000

namespace Watcher

/-- JSON grammar whitespace (RFC 8259): space, tab, line feed, carriage return. -/
def jsonWs (c : Char) : Bool :=
  c = ' ' || c = '\t' || c = '\n' || c = '\r'

/-- Whitespace recognised by JS `String.prototype.trim` (the characters that
can occur in this repository's log lines; `trim` also strips some rarer
Unicode space characters that never appear here). -/
def jsTrimWs (c : Char) : Bool :=
  c = ' ' || c = '\t' || c = '\n' || c = '\r' || c = '\x0b' || c = '\x0c'

/-- Model of JS `String.prototype.trim`: drop whitespace from both ends. -/
def jsTrim (s : List Char) : List Char :=
  ((s.dropWhile jsTrimWs).reverse.dropWhile jsTrimWs).reverse

/-- Model of JS `content.split("\n")` for the one-character separator `"\n"`:
the list of maximal `'\n'`-free segments; a trailing `'\n'` yields a final
empty segment, and `splitNl [] = [[]]` just as `"".split("\n") = [""]`. -/
def splitNl : List Char → List (List Char)
  | [] => [[]]
  | c :: rest =>
    if c = '\n' then [] :: splitNl rest
    else
      match splitNl rest with
      | [] => [[c]]
      | seg :: segs => (c :: seg) :: segs

/-- JSON values as produced by `JSON.parse`.  Numbers are kept as their
source lexeme (the claims never compare numeric values, and this avoids
modelling IEEE-754 doubles). -/
inductive Json where
  | null : Json
  | bool (b : Bool) : Json
  | num (lexeme : List Char) : Json
  | str (s : List Char) : Json
  | arr (elems : List Json) : Json
  | obj (members : List (List Char × Json)) : Json

/-- Skip JSON whitespace. -/
def skipWs : List Char → List Char
  | [] => []
  | c :: rest => if jsonWs c then skipWs rest else c :: rest

/-- ASCII decimal digit (code points 48 to 57). -/
def isDigit (c : Char) : Bool :=
  48 ≤ c.toNat && c.toNat ≤ 57

/-- Value of one hex digit, if any (digits, then lowercase, then uppercase). -/
def hexVal (c : Char) : Option Nat :=
  let n := c.toNat
  if 48 ≤ n && n ≤ 57 then some (n - 48)
  else if 97 ≤ n && n ≤ 102 then some (n - 97 + 10)
  else if 65 ≤ n && n ≤ 70 then some (n - 65 + 10)
  else none

/-- Parse exactly four hex digits (the `\uXXXX` escape payload). -/
def parseHex4 : List Char → Option (Nat × List Char)
  | h1 :: h2 :: h3 :: h4 :: rest =>
    match hexVal h1, hexVal h2, hexVal h3, hexVal h4 with
    | some v1, some v2, some v3, some v4 =>
      some (v4 + 16 * (v3 + 16 * (v2 + 16 * v1)), rest)
    | _, _, _, _ => none
  | _ => none

/-- Simple escapes after a backslash inside a JSON string. -/
def escChar (c : Char) : Option Char :=
  if c = '"' then some '"'
  else if c = '\\' then some '\\'
  else if c = '/' then some '/'
  else if c = 'b' then some '\x08'
  else if c = 'f' then some '\x0c'
  else if c = 'n' then some '\n'
  else if c = 'r' then some '\r'
  else if c = 't' then some '\t'
  else none

/-- Body of a JSON string, after the opening quote: returns the decoded
characters and the remainder after the closing quote.  `\uXXXX` escapes
denoting surrogate halves are rejected (they decode to no scalar value;
no log line in this system uses them). -/
def strBody : Nat → List Char → Option (List Char × List Char)
  | 0, _ => none
  | _ + 1, [] => none
  | fuel + 1, c :: rest =>
    if c = '"' then some ([], rest)
    else if c = '\\' then
      match rest with
      | [] => none
      | e :: rest2 =>
        if e = 'u' then
          match parseHex4 rest2 with
          | some (n, rest3) =>
            if n.isValidChar then
              match strBody fuel rest3 with
              | some (s, rem) => some (Char.ofNat n :: s, rem)
              | none => none
            else none
          | none => none
        else
          match escChar e with
          | some ch =>
            match strBody fuel rest2 with
            | some (s, rem) => some (ch :: s, rem)
            | none => none
          | none => none
    else if c.toNat < 0x20 then none
    else
      match strBody fuel rest with
      | some (s, rem) => some (c :: s, rem)
      | none => none

/-- Optional fraction part of a JSON number. -/
def parseFrac (cs : List Char) : Option (List Char × List Char) :=
  match cs with
  | '.' :: r =>
    match r.span isDigit with
    | (ds, r2) => if ds.isEmpty then none else some ('.' :: ds, r2)
  | _ => some ([], cs)

/-- Optional exponent part of a JSON number. -/
def parseExp (cs : List Char) : Option (List Char × List Char) :=
  match cs with
  | c :: r =>
    if c = 'e' || c = 'E' then
      match r with
      | s :: r2 =>
        if s = '+' || s = '-' then
          match r2.span isDigit with
          | (ds, r3) => if ds.isEmpty then none else some (c :: s :: ds, r3)
        else
          match r.span isDigit with
          | (ds, r3) => if ds.isEmpty then none else some (c :: ds, r3)
      | [] => none
    else some ([], cs)
  | [] => some ([], [])

/-- Integer part of a JSON number (after an optional minus sign):
`0` or a nonzero digit followed by digits. -/
def parseIntPart (cs : List Char) : Option (List Char × List Char) :=
  match cs with
  | c :: r =>
    if c = '0' then some (['0'], r)
    else if isDigit c then
      match r.span isDigit with
      | (ds, r2) => some (c :: ds, r2)
    else none
  | [] => none

/-- A JSON number lexeme: `-? int frac? exp?`. -/
def parseNumber (cs : List Char) : Option (List Char × List Char) :=
  let (sgn, cs1) :=
    match cs with
    | '-' :: r => (['-'], r)
    | _ => ([], cs)
  match parseIntPart cs1 with
  | none => none
  | some (ip, cs2) =>
    match parseFrac cs2 with
    | none => none
    | some (fp, cs3) =>
      match parseExp cs3 with
      | none => none
      | some (ep, cs4) => some (sgn ++ ip ++ fp ++ ep, cs4)

mutual

/-- Parse one JSON value at the head of the input (whitespace already
skipped); returns the value and the unconsumed remainder.  The fuel
argument only bounds recursion depth; `jsonParse` supplies enough. -/
def parseValue : Nat → List Char → Option (Json × List Char)
  | 0, _ => none
  | _ + 1, [] => none
  | fuel + 1, c :: rest =>
    if c = '{' then
      match skipWs rest with
      | '}' :: r2 => some (.obj [], r2)
      | r1 => (parseMembers fuel r1).map (fun (ms, r) => (.obj ms, r))
    else if c = '[' then
      match skipWs rest with
      | ']' :: r2 => some (.arr [], r2)
      | r1 => (parseElements fuel r1).map (fun (es, r) => (.arr es, r))
    else if c = '"' then
      (strBody (rest.length + 1) rest).map (fun (s, r) => (.str s, r))
    else if c = 't' then
      match rest with
      | 'r' :: 'u' :: 'e' :: r => some (.bool true, r)
      | _ => none
    else if c = 'f' then
      match rest with
      | 'a' :: 'l' :: 's' :: 'e' :: r => some (.bool false, r)
      | _ => none
    else if c = 'n' then
      match rest with
      | 'u' :: 'l' :: 'l' :: r => some (.null, r)
      | _ => none
    else
      (parseNumber (c :: rest)).map (fun (lx, r) => (.num lx, r))

/-- Parse the elements of a non-empty JSON array, positioned at the first
element (leading whitespace skipped); consumes through the closing `]`. -/
def parseElements : Nat → List Char → Option (List Json × List Char)
  | 0, _ => none
  | fuel + 1, cs =>
    match parseValue fuel cs with
    | none => none
    | some (v, rest) =>
      match skipWs rest with
      | ',' :: r2 => (parseElements fuel (skipWs r2)).map (fun (es, r) => (v :: es, r))
      | ']' :: r2 => some ([v], r2)
      | _ => none

/-- Parse the members of a non-empty JSON object, positioned at the first
member (leading whitespace skipped); consumes through the closing `}`. -/
def parseMembers : Nat → List Char → Option (List (List Char × Json) × List Char)
  | 0, _ => none
  | fuel + 1, cs =>
    match cs with
    | '"' :: r1 =>
      match strBody (r1.length + 1) r1 with
      | none => none
      | some (key, r2) =>
        match skipWs r2 with
        | ':' :: r3 =>
          match parseValue fuel (skipWs r3) with
          | none => none
          | some (v, r4) =>
            match skipWs r4 with
            | ',' :: r5 =>
              match skipWs r5 with
              | '"' :: _ => (parseMembers fuel (skipWs r5)).map (fun (ms, r) => ((key, v) :: ms, r))
              | _ => none
            | '}' :: r5 => some ([(key, v)], r5)
            | _ => none
        | _ => none
    | _ => none

end

/-- Model of `JSON.parse`: parse one JSON value surrounded by optional
whitespace; any trailing non-whitespace input is a syntax error. -/
def jsonParse (cs : List Char) : Option Json :=
  match parseValue (2 * cs.length + 2) (skipWs cs) with
  | some (v, rest) => if (skipWs rest).isEmpty then some v else none
  | none => none

/-! ## The watcher operations, translated from `viewer/watcher.ts` -/

/-- Translation of `LogFileWatcher.parseLines`: split the chunk on `"\n"`,
keep lines whose `trim()` is non-empty, `JSON.parse` each kept line and
silently skip the ones that fail. -/
def parseLines (content : List Char) : List Json :=
  ((splitNl content).filter (fun line => !(jsTrim line).isEmpty)).filterMap
    (fun line => jsonParse line)

/-- Translation of `LogFileWatcher.checkForChanges`, as the pure state
transformer of one poll tick.  The first component is the updated
`lastSize`; the second is the list of byte-range reads the tick schedules
(`file.slice(lastSize, currentSize)` whose `.text().then(...)` continuation
will parse and emit — the tick itself emits nothing synchronously).
Growth schedules exactly one read; truncation and no-change schedule none. -/
def checkForChanges (content : List Char) (lastSize : Nat) : Nat × List (List Char) :=
  let currentSize := content.length
  if lastSize < currentSize then
    (currentSize, [(content.drop lastSize).take (currentSize - lastSize)])
  else if currentSize < lastSize then
    (currentSize, [])
  else
    (lastSize, [])

/-- One poll tick under the normal schedule, in which the read scheduled by
`checkForChanges` completes and its continuation (parse + emit) runs before
anything else happens: returns the updated `lastSize` and the entries
emitted for this tick, in file order. -/
def tickOnce (content : List Char) (lastSize : Nat) : Nat × List Json :=
  let r := checkForChanges content lastSize
  (r.1, r.2.flatMap parseLines)

/-- Translation of `LogFileWatcher.getFileSize`: 0 when no session is
selected or the file is absent, otherwise the file's byte length.  The
file system is modelled as a partial map from session id to file content
(`PATHS.getSessionLogPath` is injective in the session id, so keying by
session id is faithful). -/
def getFileSize (currentSessionId : Option (List Char))
    (fs : List Char → Option (List Char)) : Nat :=
  match currentSessionId with
  | none => 0
  | some sid =>
    match fs sid with
    | none => 0
    | some content => content.length

/-- Translation of `LogFileWatcher.setSession`: switch the tracked session
and reset `lastSize` to the new file's current size.  Returns the new
(`currentSessionId`, `lastSize`) pair. -/
def setSession (session_id : List Char) (fs : List Char → Option (List Char)) :
    Option (List Char) × Nat :=
  (some session_id, getFileSize (some session_id) fs)

/-- Translation of `LogFileWatcher.getAllEntries`: empty when no session is
selected, when the file is absent or unreadable (the `catch` branch), or
when its size is 0; otherwise every parsable line of the whole file. -/
def getAllEntries (currentSessionId : Option (List Char))
    (fs : List Char → Option (List Char)) : List Json :=
  match currentSessionId with
  | none => []
  | some sid =>
    match fs sid with
    | none => []
    | some content => if content.length = 0 then [] else parseLines content

/-- Translation of `LogFileWatcher.emit`: invoke every subscriber in order
inside a per-subscriber `try/catch`.  A callback is modelled as a function
that either succeeds or raises an error message.  Returns the callbacks
invoked (in invocation order) and the error messages logged; nothing
escapes to the caller. -/
def emit {β : Type} (subscribers : List β)
    (call : β → Json → Except (List Char) Unit) (entry : Json) :
    List β × List (List Char) :=
  subscribers.foldl
    (fun acc cb =>
      match call cb entry with
      | .ok _ => (acc.1 ++ [cb], acc.2)
      | .error e => (acc.1 ++ [cb], acc.2 ++ [e]))
    ([], [])

/-- Translation of `LogFileWatcher.subscribe`'s effect on the subscriber
set: JS `Set.add` keeps insertion order and ignores an element already
present. -/
def subscribe {β : Type} [DecidableEq β] (subscribers : List β) (cb : β) : List β :=
  if cb ∈ subscribers then subscribers else subscribers ++ [cb]

/-- Translation of the unsubscribe handle `() => this.subscribers.delete(callback)`:
JS `Set.delete` removes the element if present and is a no-op otherwise. -/
def unsubscribe {β : Type} [DecidableEq β] (subscribers : List β) (cb : β) : List β :=
  subscribers.erase cb

/-! ## Session indexing (`LogFileWatcher.listSessions`) -/

/-- The characters of the string literal `'.txt'` used by the source. -/
def txtExt : List Char := ['.', 't', 'x', 't']

/-- Does the string start with `".txt"`? -/
def startsWithTxt : List Char → Bool
  | a :: b :: c :: d :: _ => a = '.' && b = 't' && c = 'x' && d = 't'
  | _ => false

/-- Does the string contain `".txt"` anywhere? -/
def containsTxt : List Char → Bool
  | [] => false
  | c :: rest => startsWithTxt (c :: rest) || containsTxt rest

/-- Translation of JS `filename.replace('.txt', '')` with a string pattern:
remove the first (leftmost) occurrence of `".txt"`, or leave the string
unchanged when there is none. -/
def removeFirstTxt : List Char → List Char
  | [] => []
  | c :: rest =>
    if startsWithTxt (c :: rest) then rest.drop 3
    else c :: removeFirstTxt rest

/-- Translation of JS `f.endsWith('.txt')`. -/
def endsWithTxt (s : List Char) : Bool := txtExt.isSuffixOf s

/-- The derived per-session metadata record, as in `viewer/types.ts`. -/
structure SessionInfo where
  session_id : List Char
  file_path : List Char
  first_entry : List Char
  last_entry : List Char
  entry_count : Nat
  size_bytes : Nat
deriving DecidableEq

/-- Code-unit-wise string order: the model of `a.localeCompare(b) ≤ 0`.
`localeCompare` is locale-sensitive in general, but on the ISO-8601
timestamp strings compared here it agrees with code-unit order. -/
def lexLe : List Char → List Char → Bool
  | [], _ => true
  | _ :: _, [] => false
  | a :: as, b :: bs =>
    if a.toNat < b.toNat then true
    else if b.toNat < a.toNat then false
    else lexLe as bs

/-- Property lookup on a parsed JSON object: with duplicate keys,
`JSON.parse` keeps the last occurrence, so scan from the end. -/
def lookupLast (key : List Char) : List (List Char × Json) → Option Json
  | [] => none
  | (k, v) :: rest =>
    match lookupLast key rest with
    | some r => some r
    | none => if k = key then some v else none

/-- Model of `parsed.timestamp ?? ''` for a non-null parse result: property
access on a non-object or a missing property yields `undefined`, and
`undefined ?? ''` and `null ?? ''` are both `''`.  (A timestamp that is
present but neither a string nor null would flow through as a non-string
value in JS; no such entry occurs in this system's logs.) -/
def tsOf : Json → List Char
  | .obj ms =>
    match lookupLast ['t','i','m','e','s','t','a','m','p'] ms with
    | some (.str s) => s
    | _ => []
  | _ => []

/-- Translation of `content.trim().split('\n').filter(Boolean)`. -/
def sessionLines (content : List Char) : List (List Char) :=
  (splitNl (jsTrim content)).filter (fun l => !l.isEmpty)

/-- Translation of the `try` block computing `first_entry`/`last_entry`:
parse the first and the last line; if either parse throws, or accessing
`.timestamp` on a null first parse throws, both stay `''`; if only the
last parse is null, `first_entry` has already been assigned when the
throw happens. -/
def firstLastEntry (lines : List (List Char)) : List Char × List Char :=
  match lines with
  | [] => ([], [])
  | first :: _ =>
    let last := lines.getLastD first
    if first.isEmpty || last.isEmpty then ([], [])
    else
      match jsonParse first, jsonParse last with
      | some fj, some lj =>
        match fj with
        | .null => ([], [])
        | _ =>
          match lj with
          | .null => (tsOf fj, [])
          | _ => (tsOf fj, tsOf lj)
      | _, _ => ([], [])

/-- The `SessionInfo` built for one directory entry inside
`listSessions`'s `map`. -/
def mkSessionInfo (dirPath filename content : List Char) : SessionInfo :=
  let lines := sessionLines content
  let fl := firstLastEntry lines
  { session_id := removeFirstTxt filename
    file_path := dirPath ++ '/' :: filename
    first_entry := fl.1
    last_entry := fl.2
    entry_count := lines.length
    size_bytes := content.length }

/-- Translation of `LogFileWatcher.listSessions`.  The log directory is
`none` when `existsSync` is false, otherwise the directory listing in
`readdirSync` order, each entry paired with the file's content.  JS
`Array.prototype.sort` is a stable sort by the comparator
`(a, b) => b.last_entry.localeCompare(a.last_entry)`, i.e. descending by
`last_entry`; `List.mergeSort` is the same stable sort. -/
def listSessions (dirPath : List Char)
    (dir : Option (List (List Char × List Char))) : List SessionInfo :=
  match dir with
  | none => []
  | some entries =>
    let files := entries.filter
      (fun f => endsWithTxt f.1 && !(f.1 = ['.','g','i','t','k','e','e','p'] : Bool))
    (files.map (fun f => mkSessionInfo dirPath f.1 f.2)).mergeSort
      (fun a b => lexLe b.last_entry a.last_entry)

/-! ## Trace model for tailing under the normal schedule

An execution is a sequence of events acting on the tracked file and the
watcher: a writer appends a batch of newline-terminated lines, or the
poll timer fires.  Under the normal schedule each tick's scheduled read
completes (and its continuation parses and emits) before the next event. -/

/-- An external event: a writer append of whole newline-terminated lines,
or a poll tick. -/
inductive Ev where
  | append (lines : List (List Char)) : Ev
  | tick : Ev

/-- Serialize a batch of lines as the bytes appended to the file: each
line followed by `'\n'`. -/
def encodeLines (lines : List (List Char)) : List Char :=
  lines.flatMap (fun l => l ++ ['\n'])

/-- One event acting on (file content, `lastSize`, entries emitted so far). -/
def stepEv (s : List Char × Nat × List Json) : Ev → List Char × Nat × List Json
  | .append lines => (s.1 ++ encodeLines lines, s.2.1, s.2.2)
  | .tick =>
    let r := tickOnce s.1 s.2.1
    (s.1, r.1, s.2.2 ++ r.2)

/-- Run a trace of events from a starting state. -/
def runTrace (s : List Char × Nat × List Json) (evs : List Ev) :
    List Char × Nat × List Json :=
  evs.foldl stepEv s

/-- The lines appended over a whole trace, in file order. -/
def appendedLines : List Ev → List (List Char)
  | [] => []
  | .append ls :: rest => ls ++ appendedLines rest
  | .tick :: rest => appendedLines rest

/-- Bookkeeping at the line level: given the lines pending (appended but
not yet observed by a tick), the lines a trace delivers and the lines
still pending at its end. -/
def lineTrace (pending : List (List Char)) : List Ev → List (List Char) × List (List Char)
  | [] => ([], pending)
  | .append ls :: rest => lineTrace (pending ++ ls) rest
  | .tick :: rest =>
    let r := lineTrace [] rest
    (pending ++ r.1, r.2)

/-- A well-formed log line: no embedded newline, not blank after `trim`,
and well-formed JSON. -/
def GoodLine (l : List Char) : Prop :=
  '\n' ∉ l ∧ (jsTrim l).isEmpty = false ∧ (jsonParse l).isSome = true

/-- Event well-formedness: appended batches consist of well-formed lines. -/
def GoodEv : Ev → Prop
  | .append ls => ∀ l ∈ ls, GoodLine l
  | .tick => True

/-! ## Scheduler model for the tick/emission interleaving

`checkForChanges` does not emit synchronously: it schedules a
`slice.text().then(...)` read whose continuation parses and emits.  The
scheduler model makes the continuation an explicit task; a run interleaves
timer ticks with task completions, and nothing in the code forces a task
to complete before the next tick fires. -/

/-- An item of the observable event log: a tick beginning (with its index)
or an entry emitted by the continuation of the read scheduled at a tick. -/
inductive LItem where
  | tickStart (n : Nat) : LItem
  | emitOf (tick : Nat) (e : Json) : LItem

/-- Scheduler state: the watcher's `lastSize`, the number of ticks fired,
the pending read tasks (tagged with the tick that scheduled them), and the
observable log. -/
structure SState where
  lastSize : Nat
  ticks : Nat
  tasks : List (Nat × List Char)
  log : List LItem

/-- A scheduler event: the poll timer fires with the file in a given
state, or the `i`-th pending read task completes and its continuation
parses the slice and emits the entries. -/
inductive SEv where
  | tick (content : List Char) : SEv
  | runTask (i : Nat) : SEv

/-- Scheduler step.  The boolean flags legality: running a task that does
not exist marks the run illegal. -/
def sstep : SState × Bool → SEv → SState × Bool
  | (s, ok), .tick content =>
    let r := checkForChanges content s.lastSize
    ({ lastSize := r.1
       ticks := s.ticks + 1
       tasks := s.tasks ++ r.2.map (fun sl => (s.ticks, sl))
       log := s.log ++ [LItem.tickStart s.ticks] }, ok)
  | (s, ok), .runTask i =>
    match s.tasks[i]? with
    | none => (s, false)
    | some t =>
      ({ s with
         tasks := s.tasks.eraseIdx i
         log := s.log ++ (parseLines t.2).map (fun e => LItem.emitOf t.1 e) }, ok)

/-- Initial scheduler state. -/
def initS : SState := ⟨0, 0, [], []⟩

/-- Run a scheduler trace. -/
def srun (evs : List SEv) : SState × Bool := evs.foldl sstep (initS, true)

/-- Does a log item emit only for tick `m` or a later tick? -/
def emitsGE (m : Nat) : LItem → Bool
  | LItem.emitOf t _ => decide (m ≤ t)
  | _ => true

/-- The spec's cross-tick ordering guarantee on an observable log: once
tick `m` has begun, no entry of an earlier tick is emitted afterwards
(i.e. tick `N`'s emissions complete before tick `N + 1` begins). -/
def orderedOK : List LItem → Bool
  | [] => true
  | LItem.tickStart m :: rest => rest.all (emitsGE m) && orderedOK rest
  | LItem.emitOf _ _ :: rest => orderedOK rest

/-- Run all currently pending tasks, oldest first. -/
def runPending : Nat → SState × Bool → SState × Bool
  | 0, sb => sb
  | n + 1, sb => runPending n (sstep sb (.runTask 0))

/-- One tick under the prompt schedule: the timer fires and every read it
scheduled completes before anything else happens. -/
def promptStep (sb : SState × Bool) (content : List Char) : SState × Bool :=
  let sb1 := sstep sb (.tick content)
  runPending sb1.1.tasks.length sb1

/-- A whole run under the prompt schedule. -/
def promptRun (contents : List (List Char)) : SState × Bool :=
  contents.foldl promptStep (initS, true)

/-! ## Lemmas about line splitting and incremental decoding -/

instance instDecidableGoodLine (l : List Char) : Decidable (GoodLine l) := by
  unfold GoodLine; exact inferInstance

instance instDecidableGoodEv (ev : Ev) : Decidable (GoodEv ev) :=
  match ev with
  | .append ls => (inferInstance : Decidable (∀ l ∈ ls, GoodLine l))
  | .tick => .isTrue trivial

theorem splitNl_append_noNl (l rest : List Char) (h : '\n' ∉ l) :
    splitNl (l ++ '\n' :: rest) = l :: splitNl rest := by
  induction l with
  | nil => simp [splitNl]
  | cons c cs ih =>
    have hc : ¬(c = '\n') := fun e => h (e ▸ List.mem_cons_self c cs)
    have h' : '\n' ∉ cs := fun m => h (List.mem_cons_of_mem _ m)
    simp [splitNl, hc, ih h']

theorem splitNl_noNl (l : List Char) (h : '\n' ∉ l) : splitNl l = [l] := by
  induction l with
  | nil => rfl
  | cons c cs ih =>
    have hc : ¬(c = '\n') := fun e => h (e ▸ List.mem_cons_self c cs)
    have h' : '\n' ∉ cs := fun m => h (List.mem_cons_of_mem _ m)
    simp [splitNl, hc, ih h']

theorem parseLines_nil : parseLines [] = [] := rfl

/-- A chunk holding a single incomplete (newline-free) fragment that is not
valid JSON decodes to no entries. -/
theorem parseLines_noNl_fail (l : List Char) (h : '\n' ∉ l)
    (hfail : jsonParse l = none) : parseLines l = [] := by
  rw [parseLines, splitNl_noNl l h]
  by_cases he : (jsTrim l).isEmpty
  · simp [List.filter, he]
  · simp [List.filter, he, hfail]

theorem encodeLines_nil : encodeLines [] = [] := rfl

theorem encodeLines_cons (l : List Char) (ls : List (List Char)) :
    encodeLines (l :: ls) = l ++ '\n' :: encodeLines ls := by
  simp [encodeLines]

theorem encodeLines_append (a b : List (List Char)) :
    encodeLines (a ++ b) = encodeLines a ++ encodeLines b := by
  simp [encodeLines]

theorem encodeLines_cons_ne_nil (l : List Char) (ls : List (List Char)) :
    encodeLines (l :: ls) ≠ [] := by
  rw [encodeLines_cons]
  rcases l with _ | ⟨c, cs⟩ <;> simp

/-- Decoding a chunk of whole well-formed lines yields exactly the decode
of each line, in order: nothing dropped, nothing duplicated. -/
theorem parseLines_encodeLines (lines : List (List Char))
    (h : ∀ l ∈ lines, GoodLine l) :
    parseLines (encodeLines lines) = lines.filterMap jsonParse := by
  induction lines with
  | nil => rfl
  | cons l ls ih =>
    obtain ⟨hnl, htrim, hsome⟩ := h l (List.mem_cons_self l ls)
    have hrest : ∀ x ∈ ls, GoodLine x := fun x hx => h x (List.mem_cons_of_mem _ hx)
    obtain ⟨v, hv⟩ := Option.isSome_iff_exists.mp hsome
    have key := ih hrest
    rw [parseLines] at key ⊢
    rw [encodeLines_cons, splitNl_append_noNl _ _ hnl,
      List.filter_cons_of_pos (by simp [htrim]), List.filterMap_cons, hv,
      List.filterMap_cons, hv, key]

theorem lineTrace_append_tick (evs : List Ev) :
    ∀ pending, lineTrace pending (evs ++ [Ev.tick]) = (pending ++ appendedLines evs, []) := by
  induction evs with
  | nil => intro pending; simp [lineTrace, appendedLines]
  | cons ev rest ih =>
    intro pending
    cases ev with
    | append ls =>
      show lineTrace (pending ++ ls) (rest ++ [Ev.tick]) = _
      rw [ih (pending ++ ls)]
      simp [appendedLines, List.append_assoc]
    | tick =>
      show (pending ++ (lineTrace [] (rest ++ [Ev.tick])).1,
        (lineTrace [] (rest ++ [Ev.tick])).2) = _
      rw [ih []]
      simp [appendedLines]

/-- Main tailing invariant.  Start from a file whose first `A.length` bytes
have been consumed (`lastSize = A.length`) followed by the encodings of the
pending lines.  Then over any trace of whole-line appends and ticks (under
the normal schedule), the file accumulates exactly the appended bytes,
`lastSize` advances over exactly the lines a tick has observed, and the
emitted entries are exactly the decodes of the observed lines, in order. -/
theorem runTrace_spec (evs : List Ev) :
    ∀ (A : List Char) (pending : List (List Char)) (em : List Json),
    (∀ l ∈ pending, GoodLine l) → (∀ ev ∈ evs, GoodEv ev) →
    runTrace (A ++ encodeLines pending, A.length, em) evs =
      (A ++ encodeLines (pending ++ appendedLines evs),
       A.length + (encodeLines (lineTrace pending evs).1).length,
       em ++ (lineTrace pending evs).1.filterMap jsonParse) := by
  induction evs with
  | nil =>
    intro A pending em _ _
    simp [runTrace, lineTrace, appendedLines, encodeLines_nil]
  | cons ev rest ih =>
    intro A pending em hp hev
    have hevrest : ∀ e ∈ rest, GoodEv e := fun e he => hev e (List.mem_cons_of_mem _ he)
    cases ev with
    | append ls =>
      have hls : ∀ l ∈ ls, GoodLine l := hev _ (List.mem_cons_self _ _)
      have hp' : ∀ l ∈ pending ++ ls, GoodLine l := by
        intro l hl
        rcases List.mem_append.mp hl with h | h
        exacts [hp l h, hls l h]
      have hstep : runTrace (A ++ encodeLines pending, A.length, em) (Ev.append ls :: rest)
          = runTrace (A ++ encodeLines (pending ++ ls), A.length, em) rest := by
        rw [runTrace, List.foldl_cons]
        simp [stepEv, encodeLines_append, runTrace]
      rw [hstep, ih A (pending ++ ls) em hp' hevrest]
      simp [lineTrace, appendedLines, List.append_assoc]
    | tick =>
      cases pending with
      | nil =>
        have hstep : runTrace (A ++ encodeLines [], A.length, em) (Ev.tick :: rest)
            = runTrace (A ++ encodeLines [], A.length, em) rest := by
          rw [runTrace, List.foldl_cons]
          simp [stepEv, tickOnce, checkForChanges, encodeLines, runTrace]
        rw [hstep, ih A [] em hp hevrest]
        simp only [lineTrace, appendedLines, List.nil_append]
      | cons p ps =>
        have hgood : ∀ l ∈ p :: ps, GoodLine l := hp
        have hEne : encodeLines (p :: ps) ≠ [] := encodeLines_cons_ne_nil p ps
        have hlt : A.length < (A ++ encodeLines (p :: ps)).length := by
          rw [List.length_append]
          have := List.length_pos.mpr hEne
          omega
        have hslice : ((A ++ encodeLines (p :: ps)).drop A.length).take
            ((A ++ encodeLines (p :: ps)).length - A.length) = encodeLines (p :: ps) := by
          rw [List.drop_left, List.length_append]
          simp
        have hpos : 0 < (encodeLines (p :: ps)).length := List.length_pos.mpr hEne
        have hstep : runTrace (A ++ encodeLines (p :: ps), A.length, em) (Ev.tick :: rest)
            = runTrace (A ++ encodeLines (p :: ps), A.length + (encodeLines (p :: ps)).length,
                em ++ (p :: ps).filterMap jsonParse) rest := by
          rw [runTrace, List.foldl_cons]
          simp [stepEv, tickOnce, checkForChanges, hlt, hslice, hpos,
            parseLines_encodeLines _ hgood, runTrace]
        have ihh := ih (A ++ encodeLines (p :: ps)) [] (em ++ (p :: ps).filterMap jsonParse)
          (by simp) hevrest
        simp only [encodeLines_nil, List.append_nil, List.length_append, List.nil_append] at ihh
        rw [hstep, ihh]
        simp only [lineTrace, appendedLines, encodeLines_append, List.append_assoc,
          List.filterMap_append, Nat.add_assoc, Prod.mk.injEq, List.append_cancel_left_eq,
          true_and, Nat.add_right_cancel_iff, Nat.add_left_cancel_iff]
        rw [List.length_append]
        exact ⟨rfl, trivial⟩

/-! ## Lemmas about the subscriber fan-out -/

theorem emit_foldl {β : Type} (call : β → Json → Except (List Char) Unit) (entry : Json) :
    ∀ (subs : List β) (acc1 : List β) (acc2 : List (List Char)),
    subs.foldl (fun acc cb =>
        match call cb entry with
        | .ok _ => (acc.1 ++ [cb], acc.2)
        | .error e => (acc.1 ++ [cb], acc.2 ++ [e])) (acc1, acc2)
    = (acc1 ++ subs,
       acc2 ++ subs.filterMap (fun cb =>
         match call cb entry with
         | .error e => some e
         | .ok _ => none)) := by
  intro subs
  induction subs with
  | nil => intro acc1 acc2; simp
  | cons cb rest ih =>
    intro acc1 acc2
    rw [List.foldl_cons, List.filterMap_cons]
    cases hc : call cb entry with
    | ok u => simp only [hc, ih, List.append_assoc, List.singleton_append]
    | error e => simp only [hc, ih, List.append_assoc, List.singleton_append]

/-! ## Lemmas about the string comparator used by session sorting -/

theorem lexLe_total : ∀ (x y : List Char), (lexLe x y || lexLe y x) = true := by
  intro x
  induction x with
  | nil => intro y; simp [lexLe]
  | cons a as ih =>
    intro y
    cases y with
    | nil => simp [lexLe]
    | cons b bs =>
      simp only [lexLe]
      by_cases hab : a.toNat < b.toNat
      · simp [hab]
      · by_cases hba : b.toNat < a.toNat
        · simp [hab, hba]
        · simp only [if_neg hab, if_neg hba]
          exact ih bs

theorem lexLe_trans : ∀ (x y z : List Char),
    lexLe x y = true → lexLe y z = true → lexLe x z = true := by
  intro x
  induction x with
  | nil => intro y z _ _; rfl
  | cons a as ih =>
    intro y z h1 h2
    cases y with
    | nil => simp [lexLe] at h1
    | cons b bs =>
      cases z with
      | nil => simp [lexLe] at h2
      | cons c cs =>
        simp only [lexLe] at h1 h2 ⊢
        by_cases hab : a.toNat < b.toNat
        · by_cases hbc : b.toNat < c.toNat
          · rw [if_pos (by omega)]
          · by_cases hcb : c.toNat < b.toNat
            · simp [hbc, hcb] at h2
            · rw [if_pos (by omega)]
        · by_cases hba : b.toNat < a.toNat
          · simp [hab, hba] at h1
          · simp only [if_neg hab, if_neg hba] at h1
            by_cases hbc : b.toNat < c.toNat
            · rw [if_pos (by omega)]
            · by_cases hcb : c.toNat < b.toNat
              · simp [hbc, hcb] at h2
              · simp only [if_neg hbc, if_neg hcb] at h2
                rw [if_neg (by omega), if_neg (by omega)]
                exact ih bs cs h1 h2

/-! ## Lemmas about the tick/emission scheduler model -/

theorem all_emitsGE_iff (m : Nat) (ys : List LItem) :
    ys.all (emitsGE m) = true ↔ ∀ t e, LItem.emitOf t e ∈ ys → m ≤ t := by
  rw [List.all_eq_true]
  constructor
  · intro h t e hm
    have := h _ hm
    simpa [emitsGE] using this
  · intro h it hit
    cases it with
    | tickStart n => simp [emitsGE]
    | emitOf t e => simpa [emitsGE] using h t e hit

theorem orderedOK_append (xs ys : List LItem)
    (h1 : orderedOK xs = true) (h2 : orderedOK ys = true)
    (h3 : ∀ m, LItem.tickStart m ∈ xs → ∀ t e, LItem.emitOf t e ∈ ys → m ≤ t) :
    orderedOK (xs ++ ys) = true := by
  induction xs with
  | nil => simpa using h2
  | cons x xs ih =>
    cases x with
    | tickStart m =>
      simp only [orderedOK, Bool.and_eq_true] at h1
      obtain ⟨ha, ho⟩ := h1
      have hys : ys.all (emitsGE m) = true :=
        (all_emitsGE_iff m ys).mpr (h3 m (List.mem_cons_self _ _))
      have h3' : ∀ n, LItem.tickStart n ∈ xs → ∀ t e, LItem.emitOf t e ∈ ys → n ≤ t :=
        fun n hn => h3 n (List.mem_cons_of_mem _ hn)
      simp only [List.cons_append, orderedOK]
      show ((xs ++ ys).all (emitsGE m) && orderedOK (xs ++ ys)) = true
      simp [List.all_append, ha, hys, ih ho h3']
    | emitOf t e =>
      simp only [orderedOK] at h1
      have h3' : ∀ n, LItem.tickStart n ∈ xs → ∀ t e, LItem.emitOf t e ∈ ys → n ≤ t :=
        fun n hn => h3 n (List.mem_cons_of_mem _ hn)
      simpa only [List.cons_append, orderedOK] using ih h1 h3'

theorem orderedOK_map_emit (n : Nat) (es : List Json) :
    orderedOK (es.map (LItem.emitOf n)) = true := by
  induction es with
  | nil => rfl
  | cons e es ih => simpa only [List.map_cons, orderedOK] using ih

theorem orderedOK_tick_emits (n : Nat) (es : List Json) :
    orderedOK (LItem.tickStart n :: es.map (LItem.emitOf n)) = true := by
  simp only [orderedOK, Bool.and_eq_true, orderedOK_map_emit, and_true]
  rw [all_emitsGE_iff]
  intro t e hm
  rcases List.mem_map.mp hm with ⟨j, _, hj⟩
  cases hj
  exact le_refl n

/-- The tick a log item belongs to. -/
def itemTick : LItem → Nat
  | .tickStart m => m
  | .emitOf t _ => t

/-- Invariant of runs under the prompt schedule: the run is legal, no task
is left pending, the cross-tick ordering guarantee holds of the log, and
every log item belongs to a tick that has already fired. -/
def PromptInv (sb : SState × Bool) : Prop :=
  sb.2 = true ∧ sb.1.tasks = [] ∧ orderedOK sb.1.log = true ∧
    ∀ it ∈ sb.1.log, itemTick it < sb.1.ticks

theorem checkForChanges_snd_cases (c : List Char) (ls : Nat) :
    (checkForChanges c ls).2 = [] ∨ ∃ sl, (checkForChanges c ls).2 = [sl] := by
  unfold checkForChanges
  by_cases h1 : ls < c.length
  · right
    exact ⟨(c.drop ls).take (c.length - ls), by simp [h1]⟩
  · by_cases h2 : c.length < ls <;> simp [h1, h2]

theorem promptStep_inv (sb : SState × Bool) (c : List Char) (h : PromptInv sb) :
    PromptInv (promptStep sb c) := by
  obtain ⟨s, b⟩ := sb
  obtain ⟨hok, htasks, hord, hbelow⟩ := h
  simp only at hok htasks hord hbelow
  subst hok
  have hlogStep : ∀ m, LItem.tickStart m ∈ s.log → m < s.ticks := by
    intro m hm
    have := hbelow _ hm
    simpa [itemTick] using this
  rcases checkForChanges_snd_cases c s.lastSize with hsnd | ⟨sl, hsnd⟩
  · have hstep : promptStep (s, true) c =
        ({ lastSize := (checkForChanges c s.lastSize).1, ticks := s.ticks + 1,
           tasks := [], log := s.log ++ [LItem.tickStart s.ticks] }, true) := by
      simp [promptStep, sstep, htasks, hsnd, runPending]
    rw [hstep]
    refine ⟨rfl, rfl, ?_, ?_⟩
    · refine orderedOK_append _ _ hord rfl ?_
      intro m _ t e hm
      simp at hm
    · intro it hit
      rcases List.mem_append.mp hit with hold | hnew
      · have := hbelow _ hold
        show itemTick it < s.ticks + 1
        omega
      · simp only [List.mem_singleton] at hnew
        subst hnew
        simp [itemTick]
  · have hstep : promptStep (s, true) c =
        ({ lastSize := (checkForChanges c s.lastSize).1, ticks := s.ticks + 1,
           tasks := [],
           log := s.log ++ (LItem.tickStart s.ticks ::
             (parseLines sl).map (LItem.emitOf s.ticks)) }, true) := by
      simp [promptStep, sstep, htasks, hsnd, runPending, List.eraseIdx]
    rw [hstep]
    refine ⟨rfl, rfl, ?_, ?_⟩
    · refine orderedOK_append _ _ hord (orderedOK_tick_emits _ _) ?_
      intro m hm t e hmem
      have hmlt := hlogStep m hm
      rcases List.mem_cons.mp hmem with habs | hmap
      · cases habs
      · rcases List.mem_map.mp hmap with ⟨j, _, hj⟩
        cases hj
        omega
    · intro it hit
      rcases List.mem_append.mp hit with hold | hnew
      · have := hbelow _ hold
        show itemTick it < s.ticks + 1
        omega
      · rcases List.mem_cons.mp hnew with h1 | hmap
        · subst h1
          simp [itemTick]
        · rcases List.mem_map.mp hmap with ⟨j, _, hj⟩
          cases hj
          simp [itemTick]

theorem promptRun_inv (contents : List (List Char)) :
    PromptInv (promptRun contents) := by
  have base : PromptInv (initS, true) := by
    refine ⟨rfl, rfl, rfl, ?_⟩
    intro it hit
    simp [initS] at hit
  have gen : ∀ (cs : List (List Char)) (sb : SState × Bool),
      PromptInv sb → PromptInv (cs.foldl promptStep sb) := by
    intro cs
    induction cs with
    | nil => intro sb h; exact h
    | cons c rest ih =>
      intro sb h
      exact ih _ (promptStep_inv sb c h)
  exact gen contents (initS, true) base

/-- One tick over a file whose first `A.length` bytes are already consumed:
`lastSize` advances to the full size and exactly the decodes of the new
byte range are emitted. -/
theorem tickOnce_append (A B : List Char) :
    tickOnce (A ++ B) A.length = (A.length + B.length, parseLines B) := by
  by_cases hB : B = []
  · subst hB
    simp [tickOnce, checkForChanges, parseLines_nil]
  · have hpos : 0 < B.length := List.length_pos.mpr hB
    have hlt : A.length < (A ++ B).length := by
      rw [List.length_append]; omega
    have hslice : ((A ++ B).drop A.length).take ((A ++ B).length - A.length) = B := by
      rw [List.drop_left, List.length_append]; simp
    simp [tickOnce, checkForChanges, hlt, hslice, hpos]

/-! ## Lemmas about filename-extension stripping -/

theorem startsWithTxt_cons_append (c : Char) (bs : List Char)
    (h : startsWithTxt (c :: bs) = false) :
    startsWithTxt ((c :: bs) ++ txtExt) = false := by
  match bs with
  | [] =>
    simp only [startsWithTxt, txtExt, List.cons_append, List.nil_append]
    simp [startsWithTxt]
  | [b1] =>
    simp only [startsWithTxt, txtExt, List.cons_append, List.nil_append]
    simp [startsWithTxt]
  | [b1, b2] =>
    simp only [startsWithTxt, txtExt, List.cons_append, List.nil_append]
    simp [startsWithTxt]
  | b1 :: b2 :: b3 :: rest =>
    simp only [startsWithTxt, List.cons_append] at h ⊢
    exact h

theorem removeFirstTxt_append_txt (base : List Char)
    (h : containsTxt base = false) :
    removeFirstTxt (base ++ txtExt) = base := by
  induction base with
  | nil => rfl
  | cons c bs ih =>
    have h2 : startsWithTxt (c :: bs) = false ∧ containsTxt bs = false := by
      have := h
      simp only [containsTxt, Bool.or_eq_false_iff] at this
      exact this
    have hfalse : startsWithTxt ((c :: bs) ++ txtExt) = false :=
      startsWithTxt_cons_append c bs h2.1
    rw [List.cons_append] at hfalse
    show removeFirstTxt ((c :: bs) ++ txtExt) = c :: bs
    rw [List.cons_append, removeFirstTxt, ← List.cons_append, if_neg (by simp [hfalse]),
      ih h2.2]

/-! ## Concrete data shared by witnesses and counterexamples -/

/-- A well-formed log line. -/
def lineA : List Char := "\x7b\"a\":1\x7d".data

/-- Another well-formed log line. -/
def lineB : List Char := "\x7b\"b\":2\x7d".data

/-- A third well-formed log line. -/
def lineC : List Char := "\x7b\"c\":3\x7d".data

/-! ## The claims -/

/-- C1: for every sequence of well-formed, newline-terminated JSON lines
appended to the tracked session file across any number of appends and poll
ticks (normal schedule), the sequence of entries handed to `emit` — and
hence delivered to each subscriber, see C7 — equals the decodes of the
appended lines, in file order, with no entry duplicated and none dropped,
regardless of how the appends are chunked relative to poll ticks.
(The final tick flushes lines appended after the last tick of the trace.) -/
theorem c1_no_loss_no_dup_on_growth (evs : List Ev) (h : ∀ ev ∈ evs, GoodEv ev) :
    (runTrace ([], 0, []) (evs ++ [Ev.tick])).2.2
      = (appendedLines evs).filterMap jsonParse := by
  have h' : ∀ ev ∈ evs ++ [Ev.tick], GoodEv ev := by
    intro ev hev
    rcases List.mem_append.mp hev with hm | hm
    · exact h ev hm
    · simp only [List.mem_singleton] at hm
      subst hm
      trivial
  have key := runTrace_spec (evs ++ [Ev.tick]) [] [] []
    (by intro l hl; simp at hl) h'
  rw [lineTrace_append_tick] at key
  simp only [encodeLines_nil, List.append_nil, List.nil_append, List.length_nil] at key
  simp [key]

/-- Witness for C1 at a concrete trace: two lines appended, a tick, then a
third line appended; the flushed emission sequence is the three decodes in
file order. -/
theorem c1_witness :
    (runTrace ([], 0, [])
        ([Ev.append [lineA, lineB], Ev.tick, Ev.append [lineC]] ++ [Ev.tick])).2.2
      = (appendedLines [Ev.append [lineA, lineB], Ev.tick, Ev.append [lineC]]).filterMap
          jsonParse :=
  c1_no_loss_no_dup_on_growth [Ev.append [lineA, lineB], Ev.tick, Ev.append [lineC]]
    (by decide)

/-- C2 counterexample: the file first grows by the partial final line
`{"a"` (no trailing newline) and a tick runs; then the completing bytes
`:1}\n` arrive and another tick runs.  The claim demands that, once the
content completing the full line has arrived, exactly one entry be emitted
for the completed line `{"a":1}` — a line that is well-formed JSON — but
the watcher emits zero entries on both ticks (and never emits one for this
line at all), because the first tick advanced `lastSize` past the partial
bytes. -/
theorem c2_counterexample :
    tickOnce "\x7b\"a\"".data 0 = (4, [])
    ∧ (tickOnce "\x7b\"a\":1\x7d\n".data 4).2 = []
    ∧ ¬((tickOnce "\x7b\"a\":1\x7d\n".data 4).2.length = 1)
    ∧ (jsonParse "\x7b\"a\":1\x7d".data).isSome = true :=
  ⟨rfl, rfl, by decide, rfl⟩

/-- C2 (amended): a tick that observes a final partial line (no trailing
newline) whose bytes are not valid JSON emits zero entries for it, but
`lastSize` still advances past the partial bytes; the next tick therefore
reads only the bytes appended after the partial fragment, so the entries
it emits are the decodes of that remainder alone — in particular no entry
is emitted for the completed line unless the remainder happens to parse on
its own. -/
theorem c2_trailing_fragment_amended (A fragment completion : List Char)
    (hnl : '\n' ∉ fragment) (hfail : jsonParse fragment = none) :
    (tickOnce (A ++ fragment) A.length).2 = []
    ∧ (tickOnce (A ++ fragment) A.length).1 = A.length + fragment.length
    ∧ (tickOnce ((A ++ fragment) ++ completion) (A.length + fragment.length)).2
        = parseLines completion := by
  have h1 := tickOnce_append A fragment
  have h2 := tickOnce_append (A ++ fragment) completion
  rw [List.length_append] at h2
  refine ⟨?_, ?_, ?_⟩
  · rw [h1]
    exact parseLines_noNl_fail fragment hnl hfail
  · rw [h1]
  · rw [h2]

/-- Witness for the amended C2 at the counterexample input: the partial
fragment `{"a"` is consumed with no emission, and after the completing
bytes `:1}\n` arrive the tick emits only the decodes of `:1}\n` — which is
no entry at all. -/
theorem c2_trailing_fragment_witness :
    (tickOnce (([] : List Char) ++ "\x7b\"a\"".data) ([] : List Char).length).2 = []
    ∧ (tickOnce (([] : List Char) ++ "\x7b\"a\"".data) ([] : List Char).length).1
        = ([] : List Char).length + "\x7b\"a\"".data.length
    ∧ (tickOnce ((([] : List Char) ++ "\x7b\"a\"".data) ++ ":1\x7d\n".data)
          (([] : List Char).length + "\x7b\"a\"".data.length)).2 = parseLines ":1\x7d\n".data :=
  c2_trailing_fragment_amended [] "\x7b\"a\"".data ":1\x7d\n".data (by decide) rfl

/-- The scheduler trace refuting C3: two ticks fire while the file grows,
and only then do the two scheduled reads complete. -/
def c3CexEvs : List SEv :=
  [SEv.tick "\x7b\"a\":1\x7d\n".data,
   SEv.tick "\x7b\"a\":1\x7d\n\x7b\"b\":2\x7d\n".data,
   SEv.runTask 0, SEv.runTask 0]

/-- C3 counterexample: the claim (formalised: in every legal interleaving
of ticks and read-completions, tick `N`'s emissions complete before tick
`N + 1` begins) is false, because `checkForChanges` emits nothing
synchronously — it schedules `slice.text().then(...)` and does not await
it, so a legal run exists in which both ticks fire before either tick's
entries are emitted. -/
theorem c3_counterexample :
    ¬(∀ evs : List SEv, (srun evs).2 = true → orderedOK (srun evs).1.log = true) := by
  intro hclaim
  have h1 : (srun c3CexEvs).2 = true := by decide
  have h2 := hclaim c3CexEvs h1
  have h3 : orderedOK (srun c3CexEvs).1.log = false := by decide
  rw [h3] at h2
  exact Bool.noConfusion h2

/-- C3 (amended): within one tick's emission task, entries are emitted
strictly in file order (the task appends exactly the decodes of its byte
range, in order); and under the prompt schedule — every read scheduled by
a tick completes before the next tick fires — tick `N`'s emissions do all
complete before tick `N + 1` begins.  The cross-tick half of the original
claim holds only under that scheduling assumption, not unconditionally. -/
theorem c3_order_amended :
    (∀ contents : List (List Char),
      (promptRun contents).2 = true ∧ orderedOK (promptRun contents).1.log = true)
    ∧ (∀ (s : SState) (i tn : Nat) (sl : List Char),
        s.tasks[i]? = some (tn, sl) →
        (sstep (s, true) (SEv.runTask i)).1.log
          = s.log ++ (parseLines sl).map (LItem.emitOf tn)) := by
  constructor
  · intro contents
    obtain ⟨hok, _, hord, _⟩ := promptRun_inv contents
    exact ⟨hok, hord⟩
  · intro s i tn sl h
    simp [sstep, h]

/-- Witness for the amended C3: a two-tick prompt-schedule run is legal and
ordered, and running the single pending task of a concrete state appends
its decoded entries in file order. -/
theorem c3_order_witness :
    orderedOK (promptRun ["\x7b\"a\":1\x7d\n".data, "\x7b\"a\":1\x7d\n\x7b\"b\":2\x7d\n".data]).1.log = true
    ∧ (sstep (⟨8, 1, [(0, "\x7b\"b\":2\x7d\n".data)], [LItem.tickStart 0]⟩, true)
          (SEv.runTask 0)).1.log
        = [LItem.tickStart 0] ++ (parseLines "\x7b\"b\":2\x7d\n".data).map (LItem.emitOf 0) :=
  ⟨(c3_order_amended.1 ["\x7b\"a\":1\x7d\n".data, "\x7b\"a\":1\x7d\n\x7b\"b\":2\x7d\n".data]).2,
   c3_order_amended.2 ⟨8, 1, [(0, "\x7b\"b\":2\x7d\n".data)], [LItem.tickStart 0]⟩ 0 0
     "\x7b\"b\":2\x7d\n".data rfl⟩

/-- C4: a poll tick that observes a file size strictly smaller than
`lastSize` emits no entries and resets `lastSize` to the current smaller
size; and a subsequent growth tick reads exactly the byte range starting
at that new baseline (so nothing is re-emitted retroactively and growth is
tracked relative to the new, smaller size). -/
theorem c4_truncation_resets_baseline :
    (∀ (content : List Char) (lastSize : Nat), content.length < lastSize →
      tickOnce content lastSize = (content.length, []))
    ∧ (∀ (c2 : List Char) (newBase : Nat), newBase < c2.length →
      checkForChanges c2 newBase = (c2.length, [c2.drop newBase])) := by
  constructor
  · intro content ls h
    have h2 : ¬ls < content.length := by omega
    simp [tickOnce, checkForChanges, h2, h]
  · intro c2 nb h
    have hlen : c2.length - nb = (c2.drop nb).length := by simp
    have htake : (c2.drop nb).take (c2.length - nb) = c2.drop nb := by
      rw [hlen, List.take_length]
    simp [checkForChanges, h, htake]

/-- Witness for C4: shrinking from `lastSize = 9` to a 4-byte file emits
nothing and resets the baseline to 4; growing to 9 bytes afterwards reads
exactly bytes 4 to 9. -/
theorem c4_truncation_witness :
    tickOnce "abcd".data 9 = ("abcd".data.length, [])
    ∧ checkForChanges "abcdefghi".data 4
        = ("abcdefghi".data.length, ["abcdefghi".data.drop 4]) :=
  ⟨c4_truncation_resets_baseline.1 "abcd".data 9 (by decide),
   c4_truncation_resets_baseline.2 "abcdefghi".data 4 (by decide)⟩

/-- C5: after `setSession(B)` while B's file already holds `content`,
`lastSize` equals the file's current size, every live emission over any
subsequent trace of whole-line appends and ticks decodes only from lines
appended after the switch (so no entry decoded from the pre-existing
content is ever emitted live), and the prior content remains reachable via
`getAllEntries`. -/
theorem c5_setSession_no_replay (sid content : List Char)
    (fs : List Char → Option (List Char)) (hfs : fs sid = some content)
    (evs : List Ev) (hevs : ∀ ev ∈ evs, GoodEv ev) :
    (setSession sid fs).2 = content.length
    ∧ (runTrace (content, (setSession sid fs).2, []) evs).2.2
        = (lineTrace [] evs).1.filterMap jsonParse
    ∧ getAllEntries (setSession sid fs).1 fs = parseLines content := by
  have hsize : (setSession sid fs).2 = content.length := by
    simp [setSession, getFileSize, hfs]
  refine ⟨hsize, ?_, ?_⟩
  · have key := runTrace_spec evs content [] [] (by intro l hl; simp at hl) hevs
    simp only [encodeLines_nil, List.append_nil, List.nil_append] at key
    rw [hsize, key]
  · show getAllEntries (some sid) fs = parseLines content
    by_cases hc : content.length = 0
    · have hnil : content = [] := List.length_eq_zero.mp hc
      subst hnil
      simp [getAllEntries, hfs, parseLines_nil]
    · simp [getAllEntries, hfs, hc]

/-- Witness for C5: switching to session `B` whose file already holds one
full line, then appending one new line and ticking, emits only the new
line's decode, while `getAllEntries` still returns the old line's decode. -/
theorem c5_setSession_witness :
    (setSession "B".data
        (fun s => if s = "B".data then some "\x7b\"old\":0\x7d\n".data else none)).2
      = "\x7b\"old\":0\x7d\n".data.length
    ∧ (runTrace ("\x7b\"old\":0\x7d\n".data,
          (setSession "B".data
            (fun s => if s = "B".data then some "\x7b\"old\":0\x7d\n".data else none)).2, [])
          [Ev.append [lineA], Ev.tick]).2.2
        = (lineTrace [] [Ev.append [lineA], Ev.tick]).1.filterMap jsonParse
    ∧ getAllEntries
        (setSession "B".data
          (fun s => if s = "B".data then some "\x7b\"old\":0\x7d\n".data else none)).1
        (fun s => if s = "B".data then some "\x7b\"old\":0\x7d\n".data else none)
        = parseLines "\x7b\"old\":0\x7d\n".data :=
  c5_setSession_no_replay "B".data "\x7b\"old\":0\x7d\n".data
    (fun s => if s = "B".data then some "\x7b\"old\":0\x7d\n".data else none)
    (by simp) [Ev.append [lineA], Ev.tick] (by decide)

/-- C6: `getAllEntries` and `listSessions` never propagate an error to the
caller: with no session selected, with the session file absent (the size
probe and the guarded read both fall back), or with the log directory
missing, each returns an empty sequence instead of failing. -/
theorem c6_sync_entry_points_total :
    (∀ fs : List Char → Option (List Char), getAllEntries none fs = [])
    ∧ (∀ (sid : List Char) (fs : List Char → Option (List Char)),
        fs sid = none → getAllEntries (some sid) fs = [])
    ∧ (∀ dirPath : List Char, listSessions dirPath none = []) := by
  refine ⟨fun _ => rfl, ?_, fun _ => rfl⟩
  intro sid fs h
  simp [getAllEntries, h]

/-- Witness for C6: an empty file system and a missing directory yield
empty results for a missing session and for the listing. -/
theorem c6_sync_entry_points_witness :
    getAllEntries none (fun _ => (none : Option (List Char))) = []
    ∧ getAllEntries (some "s1".data) (fun _ => (none : Option (List Char))) = []
    ∧ listSessions "logs".data none = [] :=
  ⟨c6_sync_entry_points_total.1 (fun _ => none),
   c6_sync_entry_points_total.2.1 "s1".data (fun _ => none) rfl,
   c6_sync_entry_points_total.2.2 "logs".data⟩

/-- C7: for every emitted entry and every subscriber list, `emit` invokes
every subscriber exactly once in registration order — even when some
callbacks raise — and the raised errors are caught and logged (collected)
rather than propagated, so the watcher's loop is unaffected. -/
theorem c7_subscriber_error_isolation (β : Type) (subs : List β)
    (call : β → Json → Except (List Char) Unit) (entry : Json) :
    (emit subs call entry).1 = subs
    ∧ (emit subs call entry).2
        = subs.filterMap (fun cb =>
            match call cb entry with
            | .error e => some e
            | .ok _ => none) := by
  unfold emit
  rw [emit_foldl]
  simp

/-- The three session files of the spec's sorting example. -/
def sessionFileA : List Char × List Char :=
  ("a.txt".data, "\x7b\"timestamp\":\"2024-01-01T10:00:00Z\"\x7d\n".data)

/-- Second session file of the sorting example (most recent activity). -/
def sessionFileB : List Char × List Char :=
  ("b.txt".data, "\x7b\"timestamp\":\"2024-01-02T09:00:00Z\"\x7d\n".data)

/-- Third session file of the sorting example. -/
def sessionFileC : List Char × List Char :=
  ("c.txt".data, "\x7b\"timestamp\":\"2024-01-01T15:00:00Z\"\x7d\n".data)

attribute [local semireducible] List.mergeSort List.merge

/-- C8: `listSessions` returns one `SessionInfo` per log file found (the
output is a permutation of the per-file records) sorted most-recently-active
first, i.e. descending by the `last_entry` string under lexicographic
comparison; and on the spec's example timestamps
2024-01-01T10:00:00Z / 2024-01-02T09:00:00Z / 2024-01-01T15:00:00Z the
sessions come back in the order Jan-02 09:00, Jan-01 15:00, Jan-01 10:00. -/
theorem c8_listSessions_sorted (dirPath : List Char)
    (entries : List (List Char × List Char)) :
    (listSessions dirPath (some entries)).Perm
      ((entries.filter (fun f => endsWithTxt f.1
          && !(f.1 = ['.','g','i','t','k','e','e','p'] : Bool))).map
        (fun f => mkSessionInfo dirPath f.1 f.2))
    ∧ (listSessions dirPath (some entries)).Pairwise
        (fun a b => lexLe b.last_entry a.last_entry = true)
    ∧ (listSessions "logs".data (some [sessionFileA, sessionFileB, sessionFileC])).map
        (fun i => (i.session_id, i.last_entry))
      = [("b".data, "2024-01-02T09:00:00Z".data),
         ("c".data, "2024-01-01T15:00:00Z".data),
         ("a".data, "2024-01-01T10:00:00Z".data)] := by
  refine ⟨?_, ?_, ?_⟩
  · exact List.mergeSort_perm _ _
  · exact List.sorted_mergeSort
      (fun a b c h1 h2 => lexLe_trans c.last_entry b.last_entry a.last_entry h2 h1)
      (fun a b => lexLe_total b.last_entry a.last_entry) _
  · decide

/-- C9 counterexample: the filename `a.txtb.txt` ends in `.txt` and is
indexed by `listSessions`, but JS `filename.replace('.txt', '')` removes
the first occurrence of `.txt`, not the extension: the derived session id
is `ab.txt`, and appending the extension to it does not give back the
original filename. -/
theorem c9_counterexample :
    (listSessions "logs".data (some [("a.txtb.txt".data, [])])).map
        (fun i => i.session_id)
      = ["ab.txt".data]
    ∧ ¬("ab.txt".data ++ txtExt = "a.txtb.txt".data) := by
  constructor
  · decide
  · decide

/-- C9 (amended): `session_id` is the filename with the first occurrence
of `.txt` removed; whenever the only occurrence of `.txt` in the filename
is the trailing extension (the filename is `base ++ ".txt"` with `.txt`
not occurring in `base`), the reported `session_id` followed by the
extension equals the original filename. -/
theorem c9_session_id_amended (dirPath base content : List Char)
    (h : containsTxt base = false) :
    (mkSessionInfo dirPath (base ++ txtExt) content).session_id ++ txtExt
      = base ++ txtExt := by
  show removeFirstTxt (base ++ txtExt) ++ txtExt = base ++ txtExt
  rw [removeFirstTxt_append_txt base h]

/-- Witness for the amended C9 at the filename `session-1.txt`. -/
theorem c9_session_id_witness :
    (mkSessionInfo "logs".data ("session-1".data ++ txtExt) []).session_id ++ txtExt
      = "session-1".data ++ txtExt :=
  c9_session_id_amended "logs".data "session-1".data [] (by decide)

/-- C10: the subscriber set has JS `Set` semantics: re-subscribing the
same callback leaves the set unchanged, so each emitted entry invokes that
callback exactly once; the unsubscribe handle removes exactly that
callback (membership of every other callback is unchanged); invoking the
handle a second time, or for an already-removed callback, is a no-op. -/
theorem c10_subscribe_set_semantics (β : Type) [DecidableEq β]
    (s : List β) (cb : β) (call : β → Json → Except (List Char) Unit)
    (entry : Json) (hnd : s.Nodup) :
    subscribe (subscribe s cb) cb = subscribe s cb
    ∧ (emit (subscribe (subscribe s cb) cb) call entry).1.count cb = 1
    ∧ cb ∉ unsubscribe (subscribe s cb) cb
    ∧ (∀ x, x ≠ cb → (x ∈ unsubscribe (subscribe s cb) cb ↔ x ∈ s))
    ∧ unsubscribe (unsubscribe (subscribe s cb) cb) cb = unsubscribe (subscribe s cb) cb
    ∧ (cb ∉ s → unsubscribe s cb = s) := by
  have hidem : subscribe (subscribe s cb) cb = subscribe s cb := by
    by_cases hmem : cb ∈ s
    · simp [subscribe, hmem]
    · simp [subscribe, hmem]
  have hndsub : (subscribe s cb).Nodup := by
    by_cases hmem : cb ∈ s
    · simpa [subscribe, hmem] using hnd
    · simp [subscribe, hmem, List.nodup_append, hnd]
  have hcount : (subscribe s cb).count cb = 1 := by
    by_cases hmem : cb ∈ s
    · rw [subscribe, if_pos hmem]
      exact List.count_eq_one_of_mem hnd hmem
    · rw [subscribe, if_neg hmem, List.count_append,
        List.count_eq_zero_of_not_mem hmem]
      simp
  have hnotmem : cb ∉ unsubscribe (subscribe s cb) cb := by
    intro habs
    have := (List.Nodup.mem_erase_iff hndsub).mp habs
    exact this.1 rfl
  refine ⟨hidem, ?_, hnotmem, ?_, ?_, ?_⟩
  · rw [(c7_subscriber_error_isolation β (subscribe (subscribe s cb) cb) call entry).1,
      hidem, hcount]
  · intro x hx
    rw [unsubscribe, List.mem_erase_of_ne hx]
    by_cases hmem : cb ∈ s
    · rw [subscribe, if_pos hmem]
    · rw [subscribe, if_neg hmem, List.mem_append]
      simp [List.mem_singleton, hx]
  · exact List.erase_of_not_mem hnotmem
  · intro hmem
    exact List.erase_of_not_mem hmem

/-- Witness for C10 on the concrete subscriber set `[1, 2]` with callback
`3`: double subscription is idempotent and the handle removes it. -/
theorem c10_subscribe_set_witness :
    subscribe (subscribe [1, 2] 3) 3 = subscribe [1, 2] 3
    ∧ (3 : Nat) ∉ unsubscribe (subscribe [1, 2] 3) 3 :=
  ⟨(c10_subscribe_set_semantics Nat [1, 2] 3 (fun _ _ => Except.ok ()) Json.null
      (by decide)).1,
   (c10_subscribe_set_semantics Nat [1, 2] 3 (fun _ _ => Except.ok ()) Json.null
      (by decide)).2.2.1⟩

end Watcher
